import Mathlib

/-!
Verification of the algorithmic core of the BEKD benchmarking repository
(`scripts/Perfomance Testing/complexity_analysis.py` and
`scripts/generate_deployment_params.py`).

The Python scripts embed the protocol's arithmetic inline in their measurement
loops; the definitions below are a shallow embedding of exactly that
arithmetic.  Machine integers are modelled as `ℕ`/`ℤ` with explicit `% N`
(Python's `%` on a positive modulus agrees with `Int.emod`), the fallible
modular inverse `pow(d, -1, N)` becomes an `Option`-returning extended
Euclidean algorithm, and the elliptic-curve point operations (provided by the
`py_ecc` library, which is not part of the repository) are modelled over an
abstract additive commutative monoid of points.
-/

namespace BEKD

/-- Order of the secp256k1 group (`secp256k1.N`), the modulus used for all
scalar arithmetic in `complexity_analysis.py` and
`generate_deployment_params.py`. -/
def N : ℕ := 115792089237316195423570985008687907852837564279074904382605163141518161494337

instance : NeZero N := ⟨by decide⟩

/-- Big-endian interpretation of a byte string as a natural number, modelling
Python's `int.from_bytes(hash_output, 'big')` (line 65). -/
def bytesToNatBE (bs : List ℕ) : ℕ := bs.foldl (fun acc b => acc * 256 + b) 0

/-- The domain-separation tag `b"H0"` (bytes 0x48, 0x30) prepended at
line 63 of `complexity_analysis.py`. -/
def h0Tag : List ℕ := [72, 48]

/-- Hash-to-scalar `H0` from `complexity_analysis.py` lines 63-65 (also
line 169): concatenate the domain tag with feature and salt, hash with
keccak-256, read the digest big-endian and reduce mod `N`.  The keccak
permutation itself lives in the `eth_utils` library, not in this repository,
so it is passed as an explicit (fixed) function argument; `H0` consumes no
randomness and reads no other state. -/
def H0 (keccak256 : List ℕ → List ℕ) (feature salt : List ℕ) : ℕ :=
  bytesToNatBE (keccak256 (h0Tag ++ feature ++ salt)) % N

/-- Model of `secrets.randbelow(N - 1) + 1`, the expression used for every
secret scalar drawn by the scripts (`complexity_analysis.py` lines 35, 85,
113, 154, 159; `generate_deployment_params.py` line 14).  `randbelow(m)`
returns a uniform value in `[0, m)`; an arbitrary RNG output `r` is mapped
into that range by `r % (N - 1)`. -/
def drawScalar (r : ℕ) : ℕ := r % (N - 1) + 1

/-- Model of `complexity_analysis.py` line 85: the benchmark draws `t`
coefficients, each via `randbelow(N - 1) + 1`, and uses the resulting list
directly as the sharing polynomial (no secret is inserted). -/
def drawCoefficients (rs : List ℕ) : List ℕ := rs.map drawScalar

/-- Polynomial evaluation as performed at `complexity_analysis.py` line 92:
`sum(coeff * (i ** j) for j, coeff in enumerate(coefficients))`, with `e` the
exponent of the first coefficient (the code starts at `e = 0`). -/
def polySum : List ℕ → ℕ → ℕ → ℕ
  | [], _, _ => 0
  | c :: cs, x, e => c * x ^ e + polySum cs x (e + 1)

/-- Value of the share at index `i`: the polynomial evaluated at `i`, reduced
mod `N` (`complexity_analysis.py` line 92). -/
def shareValue (coefficients : List ℕ) (i : ℕ) : ℕ :=
  polySum coefficients i 0 % N

/-- The sharing loop of `complexity_analysis.py` lines 90-93: one share
`(i, shareValue coefficients i)` for each index `i` in `1..n`. -/
def sharesOf (coefficients : List ℕ) (n : ℕ) : List (ℕ × ℕ) :=
  (List.range' 1 n).map (fun i => (i, shareValue coefficients i))

/-- Modelled from the spec: `shareSecret` sets the constant coefficient
`c₀ = k` and appends the `t` RNG-drawn coefficients (spec §4.3).  The
secret-embedding step is absent from the repository: the benchmark at
`complexity_analysis.py` line 85 draws all of its coefficients at random and
never receives a secret.  The evaluation of the polynomial at `1..n` is the
code's own loop (lines 90-93, via `sharesOf`). -/
def shareSecret (k : ℕ) (randomCoefficients : List ℕ) (n : ℕ) : List (ℕ × ℕ) :=
  sharesOf (k :: randomCoefficients) n

/-- Fuel-based extended Euclidean algorithm: `egcd fuel a b` returns
`(g, s, t)` with `g = gcd a b` and `s*a + t*b = g`, provided `b ≤ fuel`. -/
def egcd : ℕ → ℕ → ℕ → ℕ × ℤ × ℤ
  | 0, a, _ => (a, 1, 0)
  | fuel + 1, a, b =>
    if b = 0 then (a, 1, 0)
    else
      let r := egcd fuel b (a % b)
      (r.1, r.2.2, r.2.1 - (a / b : ℤ) * r.2.2)

/-- Model of Python's `pow(z, -1, n)` (used at `complexity_analysis.py`
line 128): the modular inverse of `z` mod `n` in `[0, n)` when
`gcd(z mod n, n) = 1`, and `none` (Python raises `ValueError`) otherwise. -/
def modInverse (z : ℤ) (n : ℕ) : Option ℤ :=
  if (egcd n (z % (n : ℤ)).toNat n).1 = 1
  then some ((egcd n (z % (n : ℤ)).toNat n).2.1 % (n : ℤ))
  else none

/-- A product accumulated with reduction mod `N` at every step, exactly as the
inner loop of `complexity_analysis.py` lines 122-125 updates `numerator` and
`denominator`. -/
def foldMulMod (a : ℤ) (l : List ℤ) : ℤ :=
  l.foldl (fun acc z => acc * z % (N : ℤ)) a

/-- The `numerator` accumulated by the inner loop (lines 122-124) for the
share at position `i`: the product of `(0 - xj)` over all positions `j ≠ i`,
reduced mod `N` at each step. -/
def numeratorAt (shares : List (ℤ × ℤ)) (i : ℕ) : ℤ :=
  foldMulMod 1 (((shares.enum.filter (fun p => p.1 ≠ i)).map (fun p => 0 - p.2.1)))

/-- The `denominator` accumulated by the inner loop (lines 122-125) for the
share at position `i` with index value `xi`: the product of `(xi - xj)` over
all positions `j ≠ i`, reduced mod `N` at each step. -/
def denominatorAt (shares : List (ℤ × ℤ)) (i : ℕ) (xi : ℤ) : ℤ :=
  foldMulMod 1 (((shares.enum.filter (fun p => p.1 ≠ i)).map (fun p => xi - p.2.1)))

/-- `lambda_i` of `complexity_analysis.py` line 128:
`numerator * pow(denominator, -1, N) % N`, failing (as Python's `pow` does)
when the denominator is not invertible mod `N`. -/
def lambdaAt (shares : List (ℤ × ℤ)) (i : ℕ) (xi : ℤ) : Option ℤ :=
  (modInverse (denominatorAt shares i xi) N).map
    (fun inv => numeratorAt shares i * inv % (N : ℤ))

/-- The outer loop of `complexity_analysis.py` lines 119-129, folding
`secret = (secret + yi * lambda_i) % N` over the enumerated share list and
aborting on the first failed inverse. -/
def lagrangeGo (shares : List (ℤ × ℤ)) : List (ℕ × ℤ × ℤ) → ℤ → Option ℤ
  | [], secret => some secret
  | p :: rest, secret =>
    match lambdaAt shares p.1 p.2.1 with
    | none => none
    | some lam => lagrangeGo shares rest ((secret + p.2.2 * lam) % (N : ℤ))

/-- Lagrange interpolation at `x = 0` exactly as coded at
`complexity_analysis.py` lines 117-129. -/
def lagrangeAtZero (shares : List (ℤ × ℤ)) : Option ℤ :=
  lagrangeGo shares shares.enum 0

/-- Index value (`xi`) of the share at position `j` of the list. -/
def xsOf (shares : List (ℤ × ℤ)) (j : ℕ) : ℤ := (shares.getD j (0, 0)).1

/-- Share value (`yi`) of the share at position `j` of the list. -/
def ysOf (shares : List (ℤ × ℤ)) (j : ℕ) : ℤ := (shares.getD j (0, 0)).2

/-- Failure modes of reconstruction named by the spec (§4.4, §7). -/
inductive ReconstructError
  | insufficientShares
  | degenerateShares
deriving DecidableEq

/-- Modelled from the spec: the `reconstruct` operation of §4.4.  Its
validation wrapper (fewer than `t+1` shares fails with `InsufficientShares`;
a duplicated index makes a denominator non-invertible and fails with
`DegenerateShares`) appears only in the spec — the benchmark always passes
exactly `t+1` distinct dummy indices.  The arithmetic core is the code's own
loop (`complexity_analysis.py` lines 117-129, via `lagrangeAtZero`), whose
only failure is a denominator with no inverse mod `N`. -/
def reconstruct (t : ℕ) (shares : List (ℤ × ℤ)) : Except ReconstructError ℤ :=
  if shares.length < t + 1 then .error .insufficientShares
  else
    match lagrangeAtZero shares with
    | none => .error .degenerateShares
    | some s => .ok s

/-- The spec's closed-form reconstruction value (§4.4), written from the
spec's words for comparison with the code's loop:
`secret = Σ_i yi·Λi mod N` with `Λi = Π_{j≠i} (0 - xj)·(xi - xj)⁻¹ mod N`. -/
def reconstructSpecFormula (shares : List (ℤ × ℤ)) : ZMod N :=
  ∑ i ∈ Finset.range shares.length,
    ((ysOf shares i : ZMod N)) *
      ∏ j ∈ (Finset.range shares.length).erase i,
        ((0 : ZMod N) - (xsOf shares j : ZMod N)) *
          ((xsOf shares i : ZMod N) - (xsOf shares j : ZMod N))⁻¹

/-- The `token_size` dictionary of `analyze_space_complexity`
(`complexity_analysis.py` lines 253-259), byte counts as written there. -/
def tokenSizeBreakdown (n : ℕ) : List (String × ℕ) :=
  [("salt", 32), ("R0", 64), ("R1", 64), ("sigma", 65), ("Ai", 64 * n)]

/-- `total_token_bytes = sum(token_size.values())`
(`complexity_analysis.py` line 261). -/
def totalTokenBytes (n : ℕ) : ℕ := ((tokenSizeBreakdown n).map (fun p => p.2)).sum

/-- The serialized token size asserted by the claim (spec §6): `32·n` bytes of
salts, 64 for `R0`, 64 for `R1`, 65 for the signature and `64·n` bytes of
masked shares, i.e. `193 + 96·n` in total. -/
def specTokenBytes (n : ℕ) : ℕ := 32 * n + 64 + 64 + 65 + 64 * n

/-- Point addition on the curve, modelled over an abstract additive
commutative monoid of points (`py_ecc`'s `secp256k1.add` is a library
function, not part of this repository). -/
def pointAdd {Pt : Type} [AddCommMonoid Pt] (P Q : Pt) : Pt := P + Q

/-- Fuel-based double-and-add loop for scalar multiplication. -/
def scalarMulAux {Pt : Type} [AddCommMonoid Pt] : ℕ → Pt → ℕ → Pt
  | 0, _, _ => 0
  | fuel + 1, P, k =>
    if k = 0 then 0
    else scalarMulAux fuel (P + P) (k / 2) + (if k % 2 = 1 then P else 0)

/-- Scalar multiplication `multiply(P, k)` by double-and-add (spec §4.1),
modelled over an abstract additive commutative monoid of points. -/
def scalarMul {Pt : Type} [AddCommMonoid Pt] (P : Pt) (k : ℕ) : Pt :=
  scalarMulAux k P k

/-- Modelled from the spec: the masked share of enrollment step 3 (§4.5),
`maskedShare_i = pointAdd(scalarMul(R0, wi), scalarMul(G, f(i)))`.  The
benchmark (`complexity_analysis.py` lines 164-175) computes `wi` and
`scalarMul(R0, wi)` but leaves the share term and the point addition
"conceptual" (its own comment at lines 172, 175), so the composition is taken
from the spec; `H0` is the code's own hash-to-scalar (lines 63-65, 169). -/
def maskedShare {Pt : Type} [AddCommMonoid Pt] (G R0 : Pt)
    (keccak256 : List ℕ → List ℕ) (featureValue saltBytes : List ℕ) (fi : ℕ) : Pt :=
  pointAdd (scalarMul R0 (H0 keccak256 featureValue saltBytes)) (scalarMul G fi)

/-- Modelled from the spec: the per-feature loop of the enrollment
orchestrator (§4.5 steps 2-3) producing the list of masked shares, with
`R0 = scalarMul(G, r)` and `f(i)` the `i`-th Shamir share of the secret `k`
(the benchmark at lines 164-175 never materialises the masked shares). -/
def enrollMaskedShares {Pt : Type} [AddCommMonoid Pt] (G : Pt)
    (keccak256 : List ℕ → List ℕ) (r k : ℕ) (randomCoefficients : List ℕ)
    (features salts : List (List ℕ)) (n : ℕ) : List Pt :=
  (List.range' 1 n).map (fun i =>
    maskedShare G (scalarMul G r) keccak256 (features.getD (i - 1) [])
      (salts.getD (i - 1) []) (shareValue (k :: randomCoefficients) i))

/-- `generate_ca_keypair` of `generate_deployment_params.py` lines 11-19:
`sk = randbelow(N - 1) + 1`, `pk = multiply(G, sk)`. -/
def generateCAKeypair {Pt : Type} [AddCommMonoid Pt] (G : Pt) (rng : ℕ) : ℕ × Pt :=
  let sk := drawScalar rng
  (sk, scalarMul G sk)

/-! ### Basic facts about the embedded operations -/

theorem scalarMulAux_eq_nsmul {Pt : Type} [AddCommMonoid Pt] :
    ∀ (fuel : ℕ) (P : Pt) (k : ℕ), k ≤ fuel → scalarMulAux fuel P k = k • P := by
  intro fuel
  induction fuel with
  | zero =>
    intro P k hk
    obtain rfl : k = 0 := Nat.le_zero.mp hk
    simp [scalarMulAux]
  | succ fuel ih =>
    intro P k hk
    by_cases hk0 : k = 0
    · subst hk0; simp [scalarMulAux]
    · have hdiv : k / 2 ≤ fuel := by omega
      rw [scalarMulAux, if_neg hk0, ih (P + P) (k / 2) hdiv]
      have h2 : (k / 2) • (P + P) = (k / 2) • P + (k / 2) • P := smul_add _ _ _
      have hm : (if k % 2 = 1 then P else (0 : Pt)) = (k % 2) • P := by
        rcases Nat.mod_two_eq_zero_or_one k with h | h <;> simp [h]
      rw [h2, hm, ← add_nsmul, ← add_nsmul]
      congr 1
      omega

/-- The double-and-add loop computes the `k`-fold sum of the point. -/
theorem scalarMul_eq_nsmul {Pt : Type} [AddCommMonoid Pt] (P : Pt) (k : ℕ) :
    scalarMul P k = k • P :=
  scalarMulAux_eq_nsmul k P k le_rfl

theorem N_intCast_pos : (0 : ℤ) < (N : ℤ) := by
  exact_mod_cast Nat.pos_of_ne_zero (NeZero.ne N)

theorem N_intCast_ne_zero : (N : ℤ) ≠ 0 := ne_of_gt N_intCast_pos

/-- The fuel-based extended Euclid is correct when the fuel dominates its
third argument: it returns the gcd together with Bézout coefficients. -/
theorem egcd_spec : ∀ (fuel a b : ℕ), b ≤ fuel →
    (egcd fuel a b).1 = Nat.gcd a b ∧
      (egcd fuel a b).2.1 * (a : ℤ) + (egcd fuel a b).2.2 * (b : ℤ) = (Nat.gcd a b : ℤ) := by
  intro fuel
  induction fuel with
  | zero =>
    intro a b hb
    obtain rfl : b = 0 := Nat.le_zero.mp hb
    exact ⟨by simp [egcd], by simp [egcd]⟩
  | succ fuel ih =>
    intro a b hb
    by_cases hb0 : b = 0
    · subst hb0
      exact ⟨by simp [egcd], by simp [egcd]⟩
    · have hbpos : 0 < b := Nat.pos_of_ne_zero hb0
      have hmod : a % b ≤ fuel := by
        have := Nat.mod_lt a hbpos; omega
      obtain ⟨ih1, ih2⟩ := ih b (a % b) hmod
      have hgcd : Nat.gcd a b = Nat.gcd b (a % b) := by
        rw [Nat.gcd_comm a b, Nat.gcd_rec b a, Nat.gcd_comm (a % b) b]
      have hstep : egcd (fuel + 1) a b =
          ((egcd fuel b (a % b)).1, (egcd fuel b (a % b)).2.2,
            (egcd fuel b (a % b)).2.1 - ((a / b : ℕ) : ℤ) * (egcd fuel b (a % b)).2.2) := by
        simp [egcd, hb0]
      rw [hstep]
      constructor
      · exact ih1.trans hgcd.symm
      · have hcast : (b : ℤ) * ((a / b : ℕ) : ℤ) + ((a % b : ℕ) : ℤ) = (a : ℤ) := by
          exact_mod_cast congrArg (fun t : ℕ => (t : ℤ)) (Nat.div_add_mod a b)
        rw [hgcd]
        linear_combination ih2 - (egcd fuel b (a % b)).2.2 * hcast

/-- A successful `modInverse` really is a modular inverse. -/
theorem modInverse_mul_cancel {z v : ℤ} (h : modInverse z N = some v) :
    (v : ZMod N) * (z : ZMod N) = 1 := by
  unfold modInverse at h
  by_cases hg : (egcd N (z % (N : ℤ)).toNat N).1 = 1
  · rw [if_pos hg] at h
    have hv : v = (egcd N (z % (N : ℤ)).toNat N).2.1 % (N : ℤ) := (Option.some.inj h).symm
    obtain ⟨h1, h2⟩ := egcd_spec N ((z % (N : ℤ)).toNat) N le_rfl
    rw [h1] at hg
    rw [hg] at h2
    have hzm := congrArg (fun t : ℤ => (t : ZMod N)) h2
    push_cast at hzm
    rw [ZMod.natCast_self, mul_zero, add_zero] at hzm
    have hcast : (((z % (N : ℤ)).toNat : ℕ) : ZMod N) = (z : ZMod N) := by
      have h1' : (((z % (N : ℤ)).toNat : ℕ) : ℤ) = z % (N : ℤ) :=
        Int.toNat_of_nonneg (Int.emod_nonneg z N_intCast_ne_zero)
      calc (((z % (N : ℤ)).toNat : ℕ) : ZMod N)
          = ((((z % (N : ℤ)).toNat : ℕ) : ℤ) : ZMod N) := (Int.cast_natCast _).symm
        _ = ((z % (N : ℤ) : ℤ) : ZMod N) := by rw [h1']
        _ = (z : ZMod N) := ZMod.intCast_mod z N
    rw [hv, ZMod.intCast_mod, ← hcast]
    exact_mod_cast hzm
  · rw [if_neg hg] at h
    cases h

/-- `modInverse` succeeds on every residue that is a unit mod `N` (exactly
the inputs on which Python's `pow(z, -1, N)` does not raise). -/
theorem modInverse_isSome_of_isUnit {z : ℤ} (h : IsUnit ((z : ZMod N))) :
    ∃ v, modInverse z N = some v := by
  have hcast : (((z % (N : ℤ)).toNat : ℕ) : ZMod N) = (z : ZMod N) := by
    have h1' : (((z % (N : ℤ)).toNat : ℕ) : ℤ) = z % (N : ℤ) :=
      Int.toNat_of_nonneg (Int.emod_nonneg z N_intCast_ne_zero)
    calc (((z % (N : ℤ)).toNat : ℕ) : ZMod N)
        = ((((z % (N : ℤ)).toNat : ℕ) : ℤ) : ZMod N) := (Int.cast_natCast _).symm
      _ = ((z % (N : ℤ) : ℤ) : ZMod N) := by rw [h1']
      _ = (z : ZMod N) := ZMod.intCast_mod z N
  rw [← hcast] at h
  have hcop : Nat.Coprime ((z % (N : ℤ)).toNat) N := (ZMod.isUnit_iff_coprime _ _).mp h
  have hgcd : (egcd N ((z % (N : ℤ)).toNat) N).1 = 1 := by
    rw [(egcd_spec N _ N le_rfl).1]
    exact hcop
  unfold modInverse
  rw [if_pos hgcd]
  exact ⟨_, rfl⟩

/-- A zero denominator has no inverse mod `N` (Python raises `ValueError`). -/
theorem modInverse_zero : modInverse 0 N = none := by
  unfold modInverse
  have h0 : ((0 : ℤ) % (N : ℤ)).toNat = 0 := by norm_num
  rw [h0]
  have hg : (egcd N 0 N).1 = N := by
    rw [(egcd_spec N 0 N le_rfl).1]
    exact Nat.gcd_zero_left N
  rw [if_neg (by rw [hg]; decide)]

/-! ### Fold and enumeration lemmas for the interpolation loop -/

theorem foldMulMod_zero : ∀ l : List ℤ, foldMulMod 0 l = 0
  | [] => rfl
  | z :: l => by
    show foldMulMod (0 * z % (N : ℤ)) l = 0
    rw [zero_mul, Int.zero_emod]
    exact foldMulMod_zero l

theorem foldMulMod_of_mem_zero : ∀ (l : List ℤ), (0 : ℤ) ∈ l → ∀ a : ℤ, foldMulMod a l = 0 := by
  intro l
  induction l with
  | nil => intro h; cases h
  | cons z l ih =>
    intro h a
    rcases List.mem_cons.mp h with rfl | hmem
    · show foldMulMod (a * 0 % (N : ℤ)) l = 0
      rw [mul_zero, Int.zero_emod]
      exact foldMulMod_zero l
    · exact ih hmem _

theorem foldMulMod_cast (l : List ℤ) : ∀ a : ℤ,
    ((foldMulMod a l : ℤ) : ZMod N) = (a : ZMod N) * ((l.prod : ℤ) : ZMod N) := by
  induction l with
  | nil => intro a; simp [foldMulMod]
  | cons z l ih =>
    intro a
    show ((foldMulMod (a * z % (N : ℤ)) l : ℤ) : ZMod N) = _
    rw [ih, ZMod.intCast_mod, List.prod_cons]
    push_cast
    ring

theorem enumFrom_filter_map_prod (f : ℕ × ℤ × ℤ → ℤ) (i : ℕ) :
    ∀ (l : List (ℤ × ℤ)) (s : ℕ),
      (((l.enumFrom s).filter (fun p => p.1 ≠ i)).map f).prod
        = ∏ j ∈ Finset.range l.length, if s + j ≠ i then f (s + j, l.getD j (0, 0)) else 1 := by
  intro l
  induction l with
  | nil => intro s; simp
  | cons q l ih =>
    intro s
    have hstep : (q :: l).enumFrom s = (s, q) :: l.enumFrom (s + 1) := rfl
    rw [hstep, List.filter_cons]
    have hrhs : ∏ j ∈ Finset.range (q :: l).length,
        (if s + j ≠ i then f (s + j, (q :: l).getD j (0, 0)) else 1)
        = (∏ j ∈ Finset.range l.length,
            if (s + 1) + j ≠ i then f ((s + 1) + j, l.getD j (0, 0)) else 1) *
            (if s ≠ i then f (s, q) else 1) := by
      rw [List.length_cons, Finset.prod_range_succ']
      have h1 : ∀ j, (if s + (j + 1) ≠ i then f (s + (j + 1), (q :: l).getD (j + 1) (0, 0)) else 1)
          = (if (s + 1) + j ≠ i then f ((s + 1) + j, l.getD j (0, 0)) else 1) := by
        intro j
        have hsj : s + (j + 1) = s + 1 + j := by omega
        rw [hsj]
        rfl
      rw [Finset.prod_congr rfl fun j _ => h1 j]
      rfl
    rw [hrhs, ← ih (s + 1)]
    by_cases hsi : s = i
    · have hdec : (decide ((s, q).1 ≠ i)) = false := by simp [hsi]
      rw [hdec]
      simp only [Bool.false_eq_true, if_false]
      rw [if_neg (by simpa using hsi), mul_one]
    · have hdec : (decide ((s, q).1 ≠ i)) = true := by simp [hsi]
      rw [hdec]
      simp only [if_true, List.map_cons, List.prod_cons]
      rw [if_pos hsi]
      ring

theorem enumFrom_map_sum (g : ℕ × ℤ × ℤ → ZMod N) :
    ∀ (l : List (ℤ × ℤ)) (s : ℕ),
      ((l.enumFrom s).map g).sum
        = ∑ j ∈ Finset.range l.length, g (s + j, l.getD j (0, 0)) := by
  intro l
  induction l with
  | nil => intro s; simp
  | cons q l ih =>
    intro s
    have hstep : (q :: l).enumFrom s = (s, q) :: l.enumFrom (s + 1) := rfl
    rw [hstep, List.map_cons, List.sum_cons, ih (s + 1)]
    rw [List.length_cons, Finset.sum_range_succ']
    have h1 : ∀ j, g (s + (j + 1), (q :: l).getD (j + 1) (0, 0))
        = g ((s + 1) + j, l.getD j (0, 0)) := by
      intro j
      have hsj : s + (j + 1) = s + 1 + j := by omega
      rw [hsj]
      rfl
    rw [Finset.sum_congr rfl fun j _ => h1 j]
    have h0 : g (s + 0, (q :: l).getD 0 (0, 0)) = g (s, q) := rfl
    rw [h0]
    ring

theorem mem_enumFrom_of_lt :
    ∀ (l : List (ℤ × ℤ)) (s j : ℕ), j < l.length →
      (s + j, l.getD j (0, 0)) ∈ l.enumFrom s := by
  intro l
  induction l with
  | nil => intro s j hj; simp at hj
  | cons q l ih =>
    intro s j hj
    have hstep : (q :: l).enumFrom s = (s, q) :: l.enumFrom (s + 1) := rfl
    rw [hstep]
    cases j with
    | zero => exact List.mem_cons_self _ _
    | succ j =>
      refine List.mem_cons_of_mem _ ?_
      have h1 : s + (j + 1) = (s + 1) + j := by omega
      have h2 : (q :: l).getD (j + 1) (0, 0) = l.getD j (0, 0) := rfl
      rw [h1, h2]
      exact ih (s + 1) j (by simpa using hj)

theorem eq_of_mem_enumFrom :
    ∀ (l : List (ℤ × ℤ)) (s : ℕ) (p : ℕ × ℤ × ℤ), p ∈ l.enumFrom s →
      s ≤ p.1 ∧ p.1 - s < l.length ∧ p.2 = l.getD (p.1 - s) (0, 0) := by
  intro l
  induction l with
  | nil => intro s p hp; cases hp
  | cons q l ih =>
    intro s p hp
    have hstep : (q :: l).enumFrom s = (s, q) :: l.enumFrom (s + 1) := rfl
    rw [hstep] at hp
    rcases List.mem_cons.mp hp with rfl | hmem
    · refine ⟨le_rfl, ?_, ?_⟩
      · simp
      · simp
    · obtain ⟨h1, h2, h3⟩ := ih (s + 1) p hmem
      refine ⟨by omega, by simp; omega, ?_⟩
      have hidx : p.1 - s = (p.1 - (s + 1)) + 1 := by omega
      rw [hidx]
      exact h3

/-! ### Behaviour of the reconstruction loop -/

theorem lagrangeGo_none (shares : List (ℤ × ℤ)) :
    ∀ (ps : List (ℕ × ℤ × ℤ)) (a : ℤ),
      (∃ p ∈ ps, lambdaAt shares p.1 p.2.1 = none) →
      lagrangeGo shares ps a = none := by
  intro ps
  induction ps with
  | nil =>
    intro a h
    obtain ⟨p, hp, _⟩ := h
    cases hp
  | cons p ps ih =>
    intro a h
    obtain ⟨q, hq, hnone⟩ := h
    rcases List.mem_cons.mp hq with rfl | hmem
    · simp [lagrangeGo, hnone]
    · cases hl : lambdaAt shares p.1 p.2.1 with
      | none => simp [lagrangeGo, hl]
      | some lam =>
        simp only [lagrangeGo, hl]
        exact ih _ ⟨q, hmem, hnone⟩

theorem lagrangeGo_range (shares : List (ℤ × ℤ)) :
    ∀ (ps : List (ℕ × ℤ × ℤ)) (a r : ℤ), 0 ≤ a → a < N →
      lagrangeGo shares ps a = some r → 0 ≤ r ∧ r < N := by
  intro ps
  induction ps with
  | nil =>
    intro a r h0 h1 h
    obtain rfl : a = r := by simpa [lagrangeGo] using h
    exact ⟨h0, h1⟩
  | cons p ps ih =>
    intro a r h0 h1 h
    cases hl : lambdaAt shares p.1 p.2.1 with
    | none => simp [lagrangeGo, hl] at h
    | some lam =>
      simp only [lagrangeGo, hl] at h
      exact ih _ r (Int.emod_nonneg _ N_intCast_ne_zero) (Int.emod_lt_of_pos _ N_intCast_pos) h

theorem lagrangeGo_some_cast (shares : List (ℤ × ℤ)) :
    ∀ (ps : List (ℕ × ℤ × ℤ)) (a : ℤ),
      (∀ p ∈ ps, (lambdaAt shares p.1 p.2.1).isSome) →
      ∃ r, lagrangeGo shares ps a = some r ∧
        ((r : ℤ) : ZMod N) = ((a : ℤ) : ZMod N) +
          ((ps.map (fun p => ((p.2.2 : ℤ) : ZMod N) *
            (((lambdaAt shares p.1 p.2.1).getD 0 : ℤ) : ZMod N))).sum) := by
  intro ps
  induction ps with
  | nil =>
    intro a _
    exact ⟨a, rfl, by simp⟩
  | cons p ps ih =>
    intro a h
    have hp := h p (List.mem_cons_self p ps)
    obtain ⟨lam, hlam⟩ := Option.isSome_iff_exists.mp hp
    obtain ⟨r, hr, hcast⟩ :=
      ih ((a + p.2.2 * lam) % (N : ℤ)) (fun q hq => h q (List.mem_cons_of_mem _ hq))
    refine ⟨r, ?_, ?_⟩
    · simp [lagrangeGo, hlam, hr]
    · rw [hcast, ZMod.intCast_mod, List.map_cons, List.sum_cons, hlam, Option.getD_some]
      push_cast
      ring

/-! ### Units mod `N` and the accumulated numerators and denominators -/

theorem isUnit_intCast_of_gcd {z : ℤ} (h : Nat.gcd z.natAbs N = 1) :
    IsUnit ((z : ℤ) : ZMod N) := by
  have hunit : IsUnit ((z.natAbs : ℕ) : ZMod N) :=
    (ZMod.isUnit_iff_coprime _ _).mpr h
  rcases Int.natAbs_eq z with hz | hz
  · rw [hz, Int.cast_natCast]
    exact hunit
  · rw [hz, Int.cast_neg, Int.cast_natCast]
    exact hunit.neg

open Finset in
theorem denominatorAt_cast (shares : List (ℤ × ℤ)) (i : ℕ) (xi : ℤ) :
    ((denominatorAt shares i xi : ℤ) : ZMod N)
      = ((∏ j ∈ (range shares.length).erase i, (xi - xsOf shares j) : ℤ) : ZMod N) := by
  unfold denominatorAt
  rw [foldMulMod_cast]
  rw [show shares.enum = shares.enumFrom 0 from rfl]
  rw [enumFrom_filter_map_prod (fun p => xi - p.2.1) i shares 0]
  simp only [Nat.zero_add, xsOf]
  rw [← Finset.prod_filter, Finset.filter_ne']
  push_cast
  ring

open Finset in
theorem numeratorAt_cast (shares : List (ℤ × ℤ)) (i : ℕ) :
    ((numeratorAt shares i : ℤ) : ZMod N)
      = ((∏ j ∈ (range shares.length).erase i, (0 - xsOf shares j) : ℤ) : ZMod N) := by
  unfold numeratorAt
  rw [foldMulMod_cast]
  rw [show shares.enum = shares.enumFrom 0 from rfl]
  rw [enumFrom_filter_map_prod (fun p => 0 - p.2.1) i shares 0]
  simp only [Nat.zero_add, xsOf]
  rw [← Finset.prod_filter, Finset.filter_ne']
  push_cast
  ring

open Finset in
/-- When all pairwise index differences are invertible mod `N`, the code's
interpolation loop succeeds, stays in `[0, N)`, and its value mod `N` is the
sum `Σ yᵢ·Numᵢ·Dᵢ⁻¹` with explicit two-sided inverses `u i`. -/
theorem lagrangeAtZero_bridge (shares : List (ℤ × ℤ))
    (hcop : ∀ i < shares.length, ∀ j < shares.length, i ≠ j →
      Nat.gcd (xsOf shares i - xsOf shares j).natAbs N = 1) :
    ∃ (r : ℤ) (u : ℕ → ZMod N), lagrangeAtZero shares = some r ∧ 0 ≤ r ∧ r < N ∧
      (∀ i < shares.length,
        u i * ((∏ j ∈ (range shares.length).erase i,
          (xsOf shares i - xsOf shares j) : ℤ) : ZMod N) = 1) ∧
      ((r : ℤ) : ZMod N) = ∑ i ∈ range shares.length,
        ((ysOf shares i : ℤ) : ZMod N) *
          ((((∏ j ∈ (range shares.length).erase i, (0 - xsOf shares j)) : ℤ) : ZMod N) *
            u i) := by
  classical
  have hDunit : ∀ i < shares.length,
      IsUnit (((∏ j ∈ (range shares.length).erase i,
        (xsOf shares i - xsOf shares j) : ℤ) : ZMod N)) := by
    intro i hi
    rw [Int.cast_prod]
    refine Finset.prod_induction _ IsUnit (fun a b ha hb => ha.mul hb) isUnit_one ?_
    intro j hj
    rcases Finset.mem_erase.mp hj with ⟨hji, hjr⟩
    exact isUnit_intCast_of_gcd
      (hcop i hi j (Finset.mem_range.mp hjr) (fun h => hji h.symm))
  have hmodinv : ∀ i < shares.length,
      ∃ v, modInverse (denominatorAt shares i (xsOf shares i)) N = some v := by
    intro i hi
    apply modInverse_isSome_of_isUnit
    rw [denominatorAt_cast]
    exact hDunit i hi
  have hall : ∀ p ∈ shares.enum, (lambdaAt shares p.1 p.2.1).isSome := by
    intro p hp
    obtain ⟨_, hlt, hpeq⟩ := eq_of_mem_enumFrom shares 0 p hp
    rw [Nat.sub_zero] at hlt hpeq
    obtain ⟨v, hv⟩ := hmodinv p.1 hlt
    rw [hpeq]
    show (lambdaAt shares p.1 (xsOf shares p.1)).isSome
    rw [lambdaAt, hv]
    rfl
  obtain ⟨r, hr, hrcast⟩ := lagrangeGo_some_cast shares shares.enum 0 hall
  have hrange := lagrangeGo_range shares shares.enum 0 r le_rfl N_intCast_pos hr
  refine ⟨r,
    fun i => (((modInverse (denominatorAt shares i (xsOf shares i)) N).getD 0 : ℤ) : ZMod N),
    hr, hrange.1, hrange.2, ?_, ?_⟩
  · intro i hi
    obtain ⟨v, hv⟩ := hmodinv i hi
    show (((modInverse (denominatorAt shares i (xsOf shares i)) N).getD 0 : ℤ) : ZMod N) *
        ((∏ j ∈ (range shares.length).erase i,
          (xsOf shares i - xsOf shares j) : ℤ) : ZMod N) = 1
    rw [hv, Option.getD_some, ← denominatorAt_cast shares i (xsOf shares i)]
    exact modInverse_mul_cancel hv
  · rw [hrcast]
    rw [show shares.enum = shares.enumFrom 0 from rfl]
    rw [enumFrom_map_sum
      (fun p => ((p.2.2 : ℤ) : ZMod N) * (((lambdaAt shares p.1 p.2.1).getD 0 : ℤ) : ZMod N))
      shares 0]
    rw [Int.cast_zero, zero_add]
    simp only [Nat.zero_add]
    refine Finset.sum_congr rfl fun j hj => ?_
    have hjlt : j < shares.length := Finset.mem_range.mp hj
    obtain ⟨v, hv⟩ := hmodinv j hjlt
    show ((ysOf shares j : ℤ) : ZMod N) *
        (((lambdaAt shares j (xsOf shares j)).getD 0 : ℤ) : ZMod N) = _
    rw [lambdaAt, hv, Option.map_some', Option.getD_some]
    rw [ZMod.intCast_mod, Int.cast_mul, numeratorAt_cast, Option.getD_some]

/-! ### Lagrange interpolation at zero over `ZMod N`, via `ℚ` -/

open Finset in
theorem field_clear_denominators {F : Type} [Field F] (T : ℕ) (w Pv D : ℕ → F) (c0 : F)
    (hD : ∀ k, D k = ∏ j ∈ (range T).erase k, (w k - w j))
    (hw : ∀ i ∈ range T, ∀ j ∈ (range T).erase i, w i - w j ≠ 0)
    (hL : c0 = ∑ i ∈ range T, Pv i * ∏ j ∈ (range T).erase i, ((w i - w j)⁻¹ * (0 - w j))) :
    ∑ i ∈ range T, Pv i * ((∏ j ∈ (range T).erase i, (0 - w j)) * ∏ k ∈ (range T).erase i, D k)
      = c0 * ∏ k ∈ range T, D k := by
  have key : ∀ (A B C E : F), B ≠ 0 → (A * (B⁻¹ * C)) * (B * E) = A * (C * E) := by
    intro A B C E hB
    field_simp
    ring
  calc ∑ i ∈ range T, Pv i * ((∏ j ∈ (range T).erase i, (0 - w j)) * ∏ k ∈ (range T).erase i, D k)
      = ∑ i ∈ range T,
          (Pv i * ∏ j ∈ (range T).erase i, ((w i - w j)⁻¹ * (0 - w j))) * ∏ k ∈ range T, D k := by
        refine Finset.sum_congr rfl fun i hi => ?_
        rw [Finset.prod_mul_distrib, Finset.prod_inv_distrib,
          ← Finset.mul_prod_erase (range T) D hi, hD i]
        have hB : ∏ j ∈ (range T).erase i, (w i - w j) ≠ 0 :=
          Finset.prod_ne_zero_iff.mpr (hw i hi)
        rw [key (Pv i) (∏ j ∈ (range T).erase i, (w i - w j))
          (∏ j ∈ (range T).erase i, (0 - w j)) (∏ k ∈ (range T).erase i, D k) hB]
    _ = (∑ i ∈ range T,
          Pv i * ∏ j ∈ (range T).erase i, ((w i - w j)⁻¹ * (0 - w j))) * ∏ k ∈ range T, D k := by
        rw [Finset.sum_mul]
    _ = c0 * ∏ k ∈ range T, D k := by rw [← hL]

open Finset in
/-- The cleared-denominator Lagrange identity over `ℤ`: for `T` pairwise
distinct integer nodes and a polynomial with `T` coefficients, the weighted
sum of its values recovers the constant coefficient times the product of all
pairwise-difference denominators. -/
theorem lagrange_int_identity (T : ℕ) (hT : 0 < T) (x c Y Nu D : ℕ → ℤ)
    (hY : ∀ i, Y i = ∑ j ∈ range T, c j * x i ^ j)
    (hNu : ∀ i, Nu i = ∏ j ∈ (range T).erase i, (0 - x j))
    (hD : ∀ i, D i = ∏ j ∈ (range T).erase i, (x i - x j))
    (hx : ∀ i < T, ∀ j < T, i ≠ j → x i ≠ x j) :
    ∑ i ∈ range T, Y i * (Nu i * ∏ k ∈ (range T).erase i, D k) = c 0 * ∏ k ∈ range T, D k := by
  classical
  set v : ℕ → ℚ := fun j => (x j : ℚ) with hv
  have hinj : Set.InjOn v (range T) := by
    intro i hi j hj hij
    by_contra hne
    exact hx i (Finset.mem_range.mp hi) j (Finset.mem_range.mp hj) hne
      (Int.cast_injective hij)
  set P : Polynomial ℚ := ∑ j ∈ range T, Polynomial.C ((c j : ℚ)) * Polynomial.X ^ j with hP
  have hdeg : P.degree < (range T).card := by
    rw [Finset.card_range, hP]
    refine lt_of_le_of_lt (Polynomial.degree_sum_le _ _) ?_
    refine (Finset.sup_lt_iff ?_).mpr ?_
    · exact WithBot.bot_lt_coe T
    · intro j hj
      exact lt_of_le_of_lt (Polynomial.degree_C_mul_X_pow_le _ _)
        (by exact_mod_cast Finset.mem_range.mp hj)
  have hinterp := Lagrange.eq_interpolate (v := v) hinj hdeg
  have hP0 : P.eval 0 = (c 0 : ℚ) := by
    rw [hP, Polynomial.eval_finset_sum]
    rw [Finset.sum_eq_single 0]
    · simp
    · intro j _ hj0
      simp [Polynomial.eval_mul, Polynomial.eval_pow, Polynomial.eval_C, Polynomial.eval_X,
        zero_pow hj0]
    · intro h0; exact absurd (Finset.mem_range.mpr hT) h0
  have heval0 := congrArg (Polynomial.eval (0 : ℚ)) hinterp
  rw [hP0, Lagrange.interpolate_apply, Polynomial.eval_finset_sum] at heval0
  simp only [Polynomial.eval_mul, Polynomial.eval_C, Lagrange.basis, Polynomial.eval_prod,
    Lagrange.basisDivisor, Polynomial.eval_sub, Polynomial.eval_X] at heval0
  have hPval : ∀ i : ℕ, Polynomial.eval (v i) P = ((Y i : ℤ) : ℚ) := by
    intro i
    rw [hP, Polynomial.eval_finset_sum, hY i]
    push_cast
    refine Finset.sum_congr rfl fun j _ => ?_
    simp [hv]
  simp only [hPval] at heval0
  have hw : ∀ i ∈ range T, ∀ j ∈ (range T).erase i, v i - v j ≠ 0 := by
    intro i hi j hj
    rcases Finset.mem_erase.mp hj with ⟨hji, hjr⟩
    refine sub_ne_zero.mpr ?_
    intro hvij
    exact hx i (Finset.mem_range.mp hi) j (Finset.mem_range.mp hjr)
      (fun hij => hji hij.symm) (Int.cast_injective hvij)
  have hQ := field_clear_denominators T v (fun i => ((Y i : ℤ) : ℚ))
    (fun k => ((D k : ℤ) : ℚ)) ((c 0 : ℤ) : ℚ)
    (fun k => by
      show ((D k : ℤ) : ℚ) = ∏ j ∈ (range T).erase k, (v k - v j)
      rw [hD k]; push_cast; rfl) hw heval0
  have hcast : ∀ i : ℕ,
      ((Y i : ℤ) : ℚ) * ((∏ j ∈ (range T).erase i, (0 - v j)) *
          ∏ k ∈ (range T).erase i, ((D k : ℤ) : ℚ))
        = ((Y i * (Nu i * ∏ k ∈ (range T).erase i, D k) : ℤ) : ℚ) := by
    intro i
    rw [hNu i]
    push_cast
    rfl
  rw [Finset.sum_congr rfl fun i _ => hcast i] at hQ
  have hQ2 : ((∑ i ∈ range T, Y i * (Nu i * ∏ k ∈ (range T).erase i, D k) : ℤ) : ℚ)
      = ((c 0 * ∏ k ∈ range T, D k : ℤ) : ℚ) := by
    push_cast
    push_cast at hQ
    exact hQ
  exact_mod_cast hQ2

/-- In a commutative ring, an identity `Σᵢ Yᵢ·(Nuᵢ·Π_{k≠i} D k) = c₀·Π D`
turns into `Σᵢ Yᵢ·(Nuᵢ·uᵢ) = c₀` once every `D k` has a two-sided inverse
`u k`. -/
theorem unit_cancel_sum {R : Type} [CommRing R] (T : ℕ) (Y Nu D u : ℕ → R) (c0 : R)
    (hu : ∀ k ∈ Finset.range T, D k * u k = 1)
    (hZ : ∑ i ∈ Finset.range T, Y i * (Nu i * ∏ k ∈ (Finset.range T).erase i, D k)
        = c0 * ∏ k ∈ Finset.range T, D k) :
    ∑ i ∈ Finset.range T, Y i * (Nu i * u i) = c0 := by
  calc ∑ i ∈ Finset.range T, Y i * (Nu i * u i)
      = ∑ i ∈ Finset.range T,
          Y i * (Nu i * ∏ k ∈ (Finset.range T).erase i, D k) * ∏ k ∈ Finset.range T, u k := by
        refine Finset.sum_congr rfl fun i hi => ?_
        rw [← Finset.mul_prod_erase (Finset.range T) u hi]
        have h1 : ∏ k ∈ (Finset.range T).erase i, (D k * u k) = 1 := by
          rw [Finset.prod_congr rfl fun k hk => hu k (Finset.mem_of_mem_erase hk)]
          exact Finset.prod_const_one
        calc Y i * (Nu i * u i)
            = Y i * (Nu i * u i) * ∏ k ∈ (Finset.range T).erase i, (D k * u k) := by
              rw [h1, mul_one]
          _ = Y i * (Nu i * ∏ k ∈ (Finset.range T).erase i, D k) *
                (u i * ∏ k ∈ (Finset.range T).erase i, u k) := by
              rw [Finset.prod_mul_distrib]; ring
    _ = (∑ i ∈ Finset.range T, Y i * (Nu i * ∏ k ∈ (Finset.range T).erase i, D k)) *
          ∏ k ∈ Finset.range T, u k := by rw [Finset.sum_mul]
    _ = (c0 * ∏ k ∈ Finset.range T, D k) * ∏ k ∈ Finset.range T, u k := by rw [hZ]
    _ = c0 := by
        rw [mul_assoc, ← Finset.prod_mul_distrib]
        rw [Finset.prod_congr rfl hu, Finset.prod_const_one, mul_one]

open Finset in
/-- Lagrange interpolation at `x = 0` over `ZMod N`: with distinct nodes
whose pairwise-difference denominators have inverses `u i`, the weighted sum
of the polynomial's values recovers its constant coefficient. -/
theorem lagrange_core (T : ℕ) (hT : 0 < T) (x c : ℕ → ℤ) (u : ℕ → ZMod N)
    (hx : ∀ i < T, ∀ j < T, i ≠ j → x i ≠ x j)
    (hu : ∀ i < T, u i * (((∏ j ∈ (range T).erase i, (x i - x j)) : ℤ) : ZMod N) = 1) :
    ∑ i ∈ range T,
        (((∑ j ∈ range T, c j * x i ^ j : ℤ)) : ZMod N) *
          ((((∏ j ∈ (range T).erase i, (0 - x j)) : ℤ) : ZMod N) * u i)
      = ((c 0 : ℤ) : ZMod N) := by
  have hZ := lagrange_int_identity T hT x c
    (fun i => ∑ j ∈ range T, c j * x i ^ j)
    (fun i => ∏ j ∈ (range T).erase i, (0 - x j))
    (fun i => ∏ j ∈ (range T).erase i, (x i - x j))
    (fun i => rfl) (fun i => rfl) (fun i => rfl) hx
  have hZM : ∑ i ∈ range T,
        ((∑ j ∈ range T, c j * x i ^ j : ℤ) : ZMod N) *
          (((∏ j ∈ (range T).erase i, (0 - x j) : ℤ) : ZMod N) *
            ∏ k ∈ (range T).erase i, ((∏ j ∈ (range T).erase k, (x k - x j) : ℤ) : ZMod N))
      = ((c 0 : ℤ) : ZMod N) *
          ∏ k ∈ range T, ((∏ j ∈ (range T).erase k, (x k - x j) : ℤ) : ZMod N) := by
    exact_mod_cast congrArg (fun t : ℤ => (t : ZMod N)) hZ
  exact unit_cancel_sum T
    (fun i => ((∑ j ∈ range T, c j * x i ^ j : ℤ) : ZMod N))
    (fun i => ((∏ j ∈ (range T).erase i, (0 - x j) : ℤ) : ZMod N))
    (fun k => ((∏ j ∈ (range T).erase k, (x k - x j) : ℤ) : ZMod N))
    u ((c 0 : ℤ) : ZMod N)
    (fun k hk => by rw [mul_comm]; exact hu k (Finset.mem_range.mp hk)) hZM

/-- `polySum` is the finite sum of `c_j · xᵉ⁺ʲ`, exactly as the generator
expression at `complexity_analysis.py` line 92 describes it. -/
theorem polySum_eq_sum : ∀ (cs : List ℕ) (x e : ℕ),
    polySum cs x e = ∑ j ∈ Finset.range cs.length, cs.getD j 0 * x ^ (e + j) := by
  intro cs
  induction cs with
  | nil => intro x e; simp [polySum]
  | cons c cs ih =>
    intro x e
    rw [polySum, ih x (e + 1), List.length_cons, Finset.sum_range_succ']
    have h1 : ∀ j, (c :: cs).getD (j + 1) 0 * x ^ (e + (j + 1))
        = cs.getD j 0 * x ^ ((e + 1) + j) := by
      intro j
      have hej : e + (j + 1) = (e + 1) + j := by omega
      rw [hej]
      rfl
    rw [Finset.sum_congr rfl fun j _ => h1 j]
    have h0 : (c :: cs).getD 0 0 * x ^ (e + 0) = c * x ^ e := by
      simp
    rw [h0]
    ring

/-! ### Claim theorems (with supporting lemmas interleaved below) -/

/-- C2: the claim says `shareSecret(k, t, n)` draws `t` random coefficients
`c_1..c_t` and sets `c_0 = k`.  The code (`complexity_analysis.py` line 85)
draws `t` random coefficients and uses them as `c_0..c_{t-1}` — the secret is
never embedded.  Concretely, with `t = 1, n = 3` and RNG draw `[5]`, the
code's shares are all `5` and the polynomial's constant term is `5`, while
the claimed construction for secret `k = 42` yields shares `47, 52, 57`. -/
theorem measure_shamir_sharing_has_no_secret_term :
    sharesOf [5] 3 = [(1, 5), (2, 5), (3, 5)] ∧
      shareValue [5] 0 = 5 ∧
      shareSecret 42 [5] 3 = [(1, 47), (2, 52), (3, 57)] ∧
      sharesOf [5] 3 ≠ shareSecret 42 [5] 3 :=
  ⟨rfl, rfl, rfl, by decide⟩

/-- C4: `reconstruct` with fewer than `t + 1` supplied shares fails with
`InsufficientShares` and does not compute on the shares it was given. -/
theorem reconstruct_insufficient (t : ℕ) (shares : List (ℤ × ℤ))
    (h : shares.length < t + 1) :
    reconstruct t shares = .error .insufficientShares := by
  simp [reconstruct, h]

theorem reconstruct_insufficient_witness :
    reconstruct 1 [((1 : ℤ), (5 : ℤ))] = .error .insufficientShares :=
  reconstruct_insufficient 1 [(1, 5)] (by decide)

/-- C6: the code's token-size accounting (`complexity_analysis.py` lines
253-261) counts a single 32-byte salt, giving `225 + 64·n` bytes in total,
whereas the claim (spec §6) counts one salt per feature, `193 + 96·n` bytes;
at the script's default `n = 3` the code computes 417 bytes, the claim 481. -/
theorem token_size_counts_one_salt :
    (∀ n, totalTokenBytes n = 225 + 64 * n) ∧
      totalTokenBytes 3 = 417 ∧ specTokenBytes 3 = 481 ∧
      totalTokenBytes 3 ≠ specTokenBytes 3 := by
  refine ⟨fun n => ?_, rfl, rfl, by decide⟩
  simp [totalTokenBytes, tokenSizeBreakdown]
  ring

/-- C7: at every feature position `i ∈ 1..n`, the enrollment orchestrator's
masked share is `pointAdd(scalarMul(R0, H0(W_i, salt_i)), scalarMul(G, f(i)))`
with `R0 = scalarMul(G, r)` and `f(i)` the `i`-th Shamir share value. -/
theorem enroll_masked_share_eq {Pt : Type} [AddCommMonoid Pt] (G : Pt)
    (keccak256 : List ℕ → List ℕ) (r k : ℕ) (cs : List ℕ)
    (features salts : List (List ℕ)) (n i : ℕ)
    (h1 : 1 ≤ i) (h2 : i ≤ n) :
    (enrollMaskedShares G keccak256 r k cs features salts n).getD (i - 1) 0 =
      pointAdd
        (scalarMul (scalarMul G r)
          (H0 keccak256 (features.getD (i - 1) []) (salts.getD (i - 1) [])))
        (scalarMul G (shareValue (k :: cs) i)) := by
  have hlen : i - 1 < (List.range' 1 n).length := by
    rw [List.length_range']; omega
  unfold enrollMaskedShares
  rw [List.getD_eq_getElem _ _ (by simpa using hlen), List.getElem_map]
  have hidx : (List.range' 1 n)[i - 1] = i := by
    rw [List.getElem_range']; omega
  rw [hidx, maskedShare]

theorem enroll_masked_share_eq_witness :
    (enrollMaskedShares (1 : ℤ) (fun _ => []) 2 42 [5] [] [] 3).getD (2 - 1) 0 =
      pointAdd
        (scalarMul (scalarMul (1 : ℤ) 2)
          (H0 (fun _ => []) (([] : List (List ℕ)).getD (2 - 1) [])
            (([] : List (List ℕ)).getD (2 - 1) [])))
        (scalarMul (1 : ℤ) (shareValue (42 :: [5]) 2)) :=
  enroll_masked_share_eq 1 (fun _ => []) 2 42 [5] [] [] 3 2 (by decide) (by decide)

/-- C8: `H0` is deterministic — its output is a function of the (fixed) hash
function and the `(feature, salt)` pair alone; two evaluations on equal
inputs give equal scalars. -/
theorem H0_deterministic (keccak256 : List ℕ → List ℕ) (f₁ s₁ f₂ s₂ : List ℕ)
    (hf : f₁ = f₂) (hs : s₁ = s₂) :
    H0 keccak256 f₁ s₁ = H0 keccak256 f₂ s₂ := by
  subst hf; subst hs; rfl

theorem H0_deterministic_witness :
    H0 (fun bs => bs) [1] [2] = H0 (fun bs => bs) [1] [2] :=
  H0_deterministic (fun bs => bs) [1] [2] [1] [2] rfl rfl

/-- C9: over any commutative point group in which the base point `G` is
killed by `N` (the group order), double-and-add scalar multiplication of `G`
is a homomorphism from scalar addition mod `N` to point addition. -/
theorem scalarMul_mod_add_hom {Pt : Type} [AddCommMonoid Pt] (G : Pt)
    (hG : N • G = 0) (a b : ℕ) :
    scalarMul G ((a + b) % N) = pointAdd (scalarMul G a) (scalarMul G b) := by
  rw [pointAdd, scalarMul_eq_nsmul, scalarMul_eq_nsmul, scalarMul_eq_nsmul, ← add_nsmul]
  conv_rhs => rw [← Nat.mod_add_div (a + b) N]
  rw [add_nsmul, mul_nsmul, hG, smul_zero, add_zero]

theorem scalarMul_mod_add_hom_witness :
    N • (1 : ZMod N) = 0 ∧
      scalarMul (1 : ZMod N) ((5 + 7) % N) =
        pointAdd (scalarMul (1 : ZMod N) 5) (scalarMul (1 : ZMod N) 7) := by
  have h : N • (1 : ZMod N) = 0 := by
    rw [nsmul_eq_mul, mul_one, ZMod.natCast_self]
  exact ⟨h, scalarMul_mod_add_hom 1 h 5 7⟩

/-- C10: every secret scalar drawn via `randbelow(N-1)+1` — the enrollment
secret, the masking scalar, the Shamir coefficients and the CA/owner private
keys — lies in `[1, N-1]`: never `0` and never `≥ N`. -/
theorem secret_scalar_range (r : ℕ) :
    (drawScalar r ≠ 0 ∧ 1 ≤ drawScalar r ∧ drawScalar r ≤ N - 1 ∧ drawScalar r < N) ∧
      (∀ rs : List ℕ, ∀ c ∈ drawCoefficients rs, c ≠ 0 ∧ c < N) ∧
      (∀ rng : ℕ, (generateCAKeypair (0 : ZMod N) rng).1 = drawScalar rng) := by
  have hN : 2 < N := by decide
  have key : ∀ s : ℕ, 1 ≤ drawScalar s ∧ drawScalar s ≤ N - 1 := by
    intro s
    have h1 : s % (N - 1) < N - 1 := Nat.mod_lt _ (by omega)
    unfold drawScalar
    omega
  refine ⟨⟨?_, (key r).1, (key r).2, ?_⟩, ?_, fun rng => rfl⟩
  · have := (key r).1; omega
  · have := (key r).2; omega
  · intro rs c hc
    obtain ⟨s, _, rfl⟩ := List.mem_map.mp hc
    have := key s
    omega

/-- C5: with at least `t + 1` shares supplied, a duplicated share index makes
one of the loop's denominators `0 mod N`, its modular inverse fails, and
`reconstruct` fails with `DegenerateShares`. -/
theorem reconstruct_duplicate (t : ℕ) (shares : List (ℤ × ℤ)) (i j : ℕ)
    (hi : i < shares.length) (hj : j < shares.length) (hij : i ≠ j)
    (hdup : xsOf shares i = xsOf shares j)
    (hlen : t + 1 ≤ shares.length) :
    reconstruct t shares = .error .degenerateShares := by
  have hz : (0 : ℤ) ∈
      ((shares.enum.filter (fun p => p.1 ≠ i)).map (fun p => xsOf shares i - p.2.1)) := by
    refine List.mem_map.mpr ⟨(j, shares.getD j (0, 0)), ?_, ?_⟩
    · refine List.mem_filter.mpr ⟨?_, ?_⟩
      · simpa using mem_enumFrom_of_lt shares 0 j hj
      · simpa using fun h => hij h.symm
    · show xsOf shares i - (shares.getD j (0, 0)).1 = 0
      rw [show (shares.getD j (0, 0)).1 = xsOf shares j from rfl, hdup, sub_self]
  have hden : denominatorAt shares i (xsOf shares i) = 0 :=
    foldMulMod_of_mem_zero _ hz 1
  have hlam : lambdaAt shares i (xsOf shares i) = none := by
    rw [lambdaAt, hden, modInverse_zero]
    rfl
  have hnone : lagrangeAtZero shares = none := by
    apply lagrangeGo_none
    refine ⟨(i, shares.getD i (0, 0)), ?_, ?_⟩
    · simpa using mem_enumFrom_of_lt shares 0 i hi
    · exact hlam
  unfold reconstruct
  rw [if_neg (by omega), hnone]

theorem reconstruct_duplicate_witness :
    reconstruct 1 [((1 : ℤ), (5 : ℤ)), ((1 : ℤ), (7 : ℤ))] = .error .degenerateShares :=
  reconstruct_duplicate 1 [(1, 5), (1, 7)] 0 1 (by decide) (by decide) (by decide)
    (by decide) (by decide)

open Finset in
/-- C3: on `t + 1` shares with pairwise-distinct nonzero indices (whose
pairwise differences are invertible mod `N`, as they always are for the
secp256k1 prime), the code's loop returns exactly the spec's closed formula
`Σᵢ yᵢ·Λᵢ mod N` with `Λᵢ = Π_{j≠i} (0 - xⱼ)·(xᵢ - xⱼ)⁻¹ mod N`. -/
theorem reconstruct_eval_spec_formula (t : ℕ) (shares : List (ℤ × ℤ))
    (hlen : shares.length = t + 1)
    (hx0 : ∀ p ∈ shares, p.1 ≠ 0)
    (hcop : ∀ i < shares.length, ∀ j < shares.length, i ≠ j →
      Nat.gcd (xsOf shares i - xsOf shares j).natAbs N = 1) :
    reconstruct t shares = .ok (((reconstructSpecFormula shares).val : ℕ) : ℤ) := by
  classical
  obtain ⟨r, u, hsome, hr0, hrN, hu, hcast⟩ := lagrangeAtZero_bridge shares hcop
  have hformula : reconstructSpecFormula shares = ((r : ℤ) : ZMod N) := by
    rw [hcast, reconstructSpecFormula]
    refine Finset.sum_congr rfl fun i hi => ?_
    have hilt : i < shares.length := Finset.mem_range.mp hi
    congr 1
    have hD : ((∏ j ∈ (range shares.length).erase i,
        (xsOf shares i - xsOf shares j) : ℤ) : ZMod N)
        = ∏ j ∈ (range shares.length).erase i,
            ((xsOf shares i : ZMod N) - (xsOf shares j : ZMod N)) := by
      push_cast
      rfl
    have hfac : ∀ j ∈ (range shares.length).erase i,
        IsUnit ((xsOf shares i : ZMod N) - (xsOf shares j : ZMod N)) := by
      intro j hjmem
      rcases Finset.mem_erase.mp hjmem with ⟨hji, hjr⟩
      have := isUnit_intCast_of_gcd
        (hcop i hilt j (Finset.mem_range.mp hjr) (fun h => hji h.symm))
      rwa [Int.cast_sub] at this
    have hVinv : (∏ j ∈ (range shares.length).erase i,
          ((xsOf shares i : ZMod N) - (xsOf shares j : ZMod N))⁻¹) *
        ((∏ j ∈ (range shares.length).erase i,
          (xsOf shares i - xsOf shares j) : ℤ) : ZMod N) = 1 := by
      rw [hD, ← Finset.prod_mul_distrib]
      rw [Finset.prod_congr rfl fun j hjmem => ZMod.inv_mul_of_unit _ (hfac j hjmem)]
      exact Finset.prod_const_one
    have huniq : (∏ j ∈ (range shares.length).erase i,
        ((xsOf shares i : ZMod N) - (xsOf shares j : ZMod N))⁻¹) = u i := by
      have h1 := hu i hilt
      have h2 := hVinv
      set D := ((∏ j ∈ (range shares.length).erase i,
        (xsOf shares i - xsOf shares j) : ℤ) : ZMod N) with hDdef
      calc (∏ j ∈ (range shares.length).erase i,
            ((xsOf shares i : ZMod N) - (xsOf shares j : ZMod N))⁻¹)
          = (∏ j ∈ (range shares.length).erase i,
              ((xsOf shares i : ZMod N) - (xsOf shares j : ZMod N))⁻¹) * (D * u i) := by
            rw [mul_comm D (u i), h1, mul_one]
        _ = ((∏ j ∈ (range shares.length).erase i,
              ((xsOf shares i : ZMod N) - (xsOf shares j : ZMod N))⁻¹) * D) * u i := by
            ring
        _ = u i := by rw [h2, one_mul]
    calc ∏ j ∈ (range shares.length).erase i,
          ((0 : ZMod N) - (xsOf shares j : ZMod N)) *
            ((xsOf shares i : ZMod N) - (xsOf shares j : ZMod N))⁻¹
        = (∏ j ∈ (range shares.length).erase i, ((0 : ZMod N) - (xsOf shares j : ZMod N))) *
            ∏ j ∈ (range shares.length).erase i,
              ((xsOf shares i : ZMod N) - (xsOf shares j : ZMod N))⁻¹ := by
          rw [Finset.prod_mul_distrib]
      _ = ((∏ j ∈ (range shares.length).erase i, (0 - xsOf shares j) : ℤ) : ZMod N) * u i := by
          rw [huniq]
          congr 1
          push_cast
          rfl
  have hval : ((reconstructSpecFormula shares).val : ℤ) = r := by
    rw [hformula, ZMod.val_intCast]
    exact Int.emod_eq_of_lt hr0 hrN
  unfold reconstruct
  rw [if_neg (by omega), hsome]
  show Except.ok r = _
  rw [hval]

theorem reconstruct_eval_spec_formula_witness :
    reconstruct 1 [((1 : ℤ), (5 : ℤ)), ((2 : ℤ), (9 : ℤ))]
      = .ok (((reconstructSpecFormula [((1 : ℤ), (5 : ℤ)), ((2 : ℤ), (9 : ℤ))]).val : ℕ) : ℤ) :=
  reconstruct_eval_spec_formula 1 [(1, 5), (2, 9)] (by decide) (by decide) (by decide)

open Finset in
/-- C1: for `0 ≤ t < n` and a secret `k < N`, reconstructing from any
`(t+1)`-element subset of the `n` shares produced by `shareSecret` (indices
pairwise distinct, in `1..n`, with differences invertible mod `N` — always
true for the secp256k1 prime) returns exactly `k`; in particular every such
subset yields the same value. -/
theorem shamir_reconstruct_any_subset (k n : ℕ) (cs idx : List ℕ)
    (hk : k < N) (htn : cs.length < n)
    (hlen : idx.length = cs.length + 1)
    (hnd : idx.Nodup)
    (hmem : ∀ a ∈ idx, 1 ≤ a ∧ a ≤ n)
    (hcop : ∀ a ∈ idx, ∀ b ∈ idx, a ≠ b → Nat.gcd ((a : ℤ) - (b : ℤ)).natAbs N = 1) :
    reconstruct cs.length (idx.map (fun a : ℕ => ((a : ℤ), (shareValue (k :: cs) a : ℤ))))
      = .ok (k : ℤ) := by
  classical
  set shares := idx.map (fun a : ℕ => ((a : ℤ), (shareValue (k :: cs) a : ℤ))) with hsh
  have hlensh : shares.length = idx.length := by
    rw [hsh, List.length_map]
  have hT : shares.length = cs.length + 1 := by rw [hlensh, hlen]
  have hget : ∀ p, p < shares.length →
      shares.getD p (0, 0) =
        ((idx.getD p 0 : ℤ), (shareValue (k :: cs) (idx.getD p 0) : ℤ)) := by
    intro p hp
    have hp' : p < idx.length := by rwa [hlensh] at hp
    calc shares.getD p (0, 0)
        = (idx.map (fun a : ℕ => ((a : ℤ), (shareValue (k :: cs) a : ℤ)))).getD p (0, 0) := by
          rw [hsh]
      _ = ((idx[p] : ℤ), (shareValue (k :: cs) idx[p] : ℤ)) := by
          rw [List.getD_eq_getElem _ _ (by rw [List.length_map]; exact hp'),
            List.getElem_map]
      _ = ((idx.getD p 0 : ℤ), (shareValue (k :: cs) (idx.getD p 0) : ℤ)) := by
          rw [List.getD_eq_getElem _ _ hp']
  have hxs : ∀ p, p < shares.length → xsOf shares p = ((idx.getD p 0 : ℕ) : ℤ) := by
    intro p hp
    rw [xsOf, hget p hp]
  have hys : ∀ p, p < shares.length →
      ysOf shares p = ((shareValue (k :: cs) (idx.getD p 0) : ℕ) : ℤ) := by
    intro p hp
    rw [ysOf, hget p hp]
  have hgetmem : ∀ p, p < idx.length → idx.getD p 0 ∈ idx := by
    intro p hp
    rw [List.getD_eq_getElem _ _ hp]
    exact List.getElem_mem hp
  have hgetne : ∀ p, p < idx.length → ∀ q, q < idx.length → p ≠ q →
      idx.getD p 0 ≠ idx.getD q 0 := by
    intro p hp q hq hpq
    rw [List.getD_eq_getElem _ _ hp, List.getD_eq_getElem _ _ hq]
    exact fun h => hpq ((List.Nodup.getElem_inj_iff hnd).mp h)
  have hcop' : ∀ i < shares.length, ∀ j < shares.length, i ≠ j →
      Nat.gcd (xsOf shares i - xsOf shares j).natAbs N = 1 := by
    intro i hi j hj hij
    rw [hxs i hi, hxs j hj]
    have hi' : i < idx.length := by rwa [hlensh] at hi
    have hj' : j < idx.length := by rwa [hlensh] at hj
    exact hcop _ (hgetmem i hi') _ (hgetmem j hj') (hgetne i hi' j hj' hij)
  obtain ⟨r, u, hsome, hr0, hrN, hu, hcast⟩ := lagrangeAtZero_bridge shares hcop'
  have hyi : ∀ i, i < shares.length →
      ((ysOf shares i : ℤ) : ZMod N)
        = ((∑ j ∈ range shares.length,
            (((k :: cs).getD j 0 : ℕ) : ℤ) * ((idx.getD i 0 : ℕ) : ℤ) ^ j : ℤ) : ZMod N) := by
    intro i hi
    rw [hys i hi, Int.cast_natCast, shareValue, ZMod.natCast_mod, polySum_eq_sum]
    have hlc : (k :: cs).length = shares.length := by rw [List.length_cons, hT]
    rw [hlc]
    push_cast
    refine Finset.sum_congr rfl fun j _ => ?_
    rw [Nat.zero_add]
  have hsum : ((r : ℤ) : ZMod N)
      = ∑ i ∈ range shares.length,
          ((∑ j ∈ range shares.length,
            (((k :: cs).getD j 0 : ℕ) : ℤ) * ((idx.getD i 0 : ℕ) : ℤ) ^ j : ℤ) : ZMod N) *
            ((((∏ j ∈ (range shares.length).erase i,
              (0 - ((idx.getD j 0 : ℕ) : ℤ))) : ℤ) : ZMod N) * u i) := by
    rw [hcast]
    refine Finset.sum_congr rfl fun i hi => ?_
    have hilt : i < shares.length := Finset.mem_range.mp hi
    rw [hyi i hilt]
    have hprod : (∏ j ∈ (range shares.length).erase i, (0 - xsOf shares j) : ℤ)
        = ∏ j ∈ (range shares.length).erase i, (0 - ((idx.getD j 0 : ℕ) : ℤ)) :=
      Finset.prod_congr rfl fun j hjm => by
        rw [hxs j (Finset.mem_range.mp (Finset.mem_of_mem_erase hjm))]
    rw [hprod]
  have hxdist : ∀ p < shares.length, ∀ q < shares.length, p ≠ q →
      ((idx.getD p 0 : ℕ) : ℤ) ≠ ((idx.getD q 0 : ℕ) : ℤ) := by
    intro p hp q hq hpq
    have hp' : p < idx.length := by rwa [hlensh] at hp
    have hq' : q < idx.length := by rwa [hlensh] at hq
    exact fun h => hgetne p hp' q hq' hpq (by exact_mod_cast h)
  have hu' : ∀ p < shares.length,
      u p * (((∏ j ∈ (range shares.length).erase p,
        (((idx.getD p 0 : ℕ) : ℤ) - ((idx.getD j 0 : ℕ) : ℤ))) : ℤ) : ZMod N) = 1 := by
    intro p hp
    have hprod : (∏ j ∈ (range shares.length).erase p, (xsOf shares p - xsOf shares j) : ℤ)
        = ∏ j ∈ (range shares.length).erase p,
            (((idx.getD p 0 : ℕ) : ℤ) - ((idx.getD j 0 : ℕ) : ℤ)) :=
      Finset.prod_congr rfl fun j hjm => by
        rw [hxs p hp, hxs j (Finset.mem_range.mp (Finset.mem_of_mem_erase hjm))]
    rw [← hprod]
    exact hu p hp
  have hcore := lagrange_core shares.length (by omega)
    (fun p => ((idx.getD p 0 : ℕ) : ℤ))
    (fun j => (((k :: cs).getD j 0 : ℕ) : ℤ)) u hxdist hu'
  have hrk : ((r : ℤ) : ZMod N) = (((k : ℕ) : ℤ) : ZMod N) := hsum.trans hcore
  have hreq : r = (k : ℤ) := by
    have hmod := (ZMod.intCast_eq_intCast_iff r ((k : ℕ) : ℤ) N).mp hrk
    have h1 : r % ((N : ℕ) : ℤ) = r := Int.emod_eq_of_lt hr0 hrN
    have h2 : ((k : ℕ) : ℤ) % ((N : ℕ) : ℤ) = ((k : ℕ) : ℤ) :=
      Int.emod_eq_of_lt (Int.natCast_nonneg k) (by exact_mod_cast hk)
    have hmod' : r % ((N : ℕ) : ℤ) = ((k : ℕ) : ℤ) % ((N : ℕ) : ℤ) := hmod
    rw [h1, h2] at hmod'
    exact hmod'
  unfold reconstruct
  rw [if_neg (by omega), hsome]
  show Except.ok r = _
  rw [hreq]

theorem shamir_reconstruct_any_subset_witness :
    reconstruct 1 ([1, 3].map (fun a : ℕ => ((a : ℤ), (shareValue (42 :: [7]) a : ℤ))))
      = .ok ((42 : ℕ) : ℤ) :=
  shamir_reconstruct_any_subset 42 3 [7] [1, 3] (by decide) (by decide) (by decide)
    (by decide) (by decide) (by decide)

end BEKD
